import Mathlib

/-!
Shallow embedding of the variable elimination engine in
src/Python/variable_elim.py.

A factor is a pandas DataFrame whose columns are the variables of its
scope plus one prob column.  Here a factor carries its scope (the
non-prob columns, in column order) and a list of rows; each row is an
association list from column name to discrete value, paired with the
prob entry of the row.  Probabilities are rationals, modelling the
floating point values exactly on the small instances evaluated below.
An Option result models a Python call that can raise: none stands for
an uncaught exception.
-/

set_option maxHeartbeats 1000000

/-- A row of a factor table: an association list from column name to
discrete value.  The prob entry is kept separately. -/
abbrev Row : Type := List (String × String)

/-- A factor table: the scope columns in order, and one row per joint
assignment together with its prob value. -/
structure Factor where
  scope : List String
  rows : List (Row × ℚ)
deriving DecidableEq

/-- The parsed network object the engine consumes (BayesNet): node
names, value lists, parent lists and the CPT of every node, the CPTs
keyed by variable name as in self.network.probabilities. -/
structure Network where
  nodes : List String
  values : List (String × List String)
  parents : List (String × List String)
  probabilities : List (String × Factor)
deriving DecidableEq

/-- Sum of the prob column of a factor. -/
def factorTotal (f : Factor) : ℚ :=
  (f.rows.map (fun r => r.2)).sum

/-- Drop one column from a factor: remove it from the scope and from
every row (DataFrame.drop with columns=[c]). -/
def dropCol (c : String) (f : Factor) : Factor :=
  Factor.mk (f.scope.filter (fun d => d ≠ c))
    (f.rows.map (fun r => (r.1.filter (fun p => p.1 ≠ c), r.2)))

/-- One evidence reduction (variable_elim.py lines 93 to 96): when the
variable is one of the columns of the factor, keep only the rows where
it carries the observed value and drop its column; otherwise the factor
is left untouched. -/
def reduceFactor (v val : String) (f : Factor) : Factor :=
  if v ∈ f.scope then
    dropCol v (Factor.mk f.scope (f.rows.filter (fun r => r.1.lookup v = some val)))
  else f

/-- One observed pair applied to every tracked table (the inner loop of
simplification, lines 91 to 96); the dictionary keys are unchanged. -/
def evStep (ps : List (String × Factor)) (ev : String × String) : List (String × Factor) :=
  ps.map (fun kf => (kf.1, reduceFactor ev.1 ev.2 kf.2))

/-- simplification (lines 85 to 96): every observed pair is applied to
every tracked factor table.  In the source the reduced tables are
written back into self.network.probabilities, so this mutates the
caller network object. -/
def simplification (observed : List (String × String)) (ps : List (String × Factor)) : List (String × Factor) :=
  observed.foldl evStep ps

/-- Rows of the relational inner equi-join produced by pd.merge on the
key columns, with prob made the product of the two matched prob entries
and the prob_x and prob_y columns dropped (lines 119 to 121): every row
of the left table is paired with every row of the right table agreeing
with it on all key columns; the merged assignment is the left row
followed by the non-key part of the right row. -/
def joinRows (keys : List String) : List (Row × ℚ) → List (Row × ℚ) → List (Row × ℚ)
  | [], _ => []
  | r1 :: rest, rows2 =>
    ((rows2.filter (fun r2 => keys.all (fun k => r1.1.lookup k == r2.1.lookup k))).map
      (fun r2 => (r1.1 ++ r2.1.filter (fun p => ¬ p.1 ∈ keys), r1.2 * r2.2)))
      ++ joinRows keys rest rows2

/-- pd.merge of two factor tables on the key columns followed by the
prob handling of lines 120 and 121: the merged scope is the left scope
followed by the non-key right columns. -/
def mergeOn (keys : List String) (f1 f2 : Factor) : Factor :=
  Factor.mk (f1.scope ++ f2.scope.filter (fun c => ¬ c ∈ keys))
    (joinRows keys f1.rows f2.rows)

/-- multiplication (lines 98 to 124).  The common columns are the
shared non-prob columns (a Python set, so duplicate-free; the set
iteration order is modelled by left-scope order, which the join result
does not depend on).  When no column is shared, both tables receive a
constant dummy column, the join key becomes the dummy column - pairing
every row with every row - and the dummy column is dropped from the
merged table afterwards. -/
def multiplication (f1 f2 : Factor) : Factor :=
  let common := (f1.scope.filter (fun c => c ∈ f2.scope)).dedup
  if common = [] then
    let g1 := Factor.mk (f1.scope ++ ["dummy"]) (f1.rows.map (fun r => (r.1 ++ [("dummy", "1")], r.2)))
    let g2 := Factor.mk (f2.scope ++ ["dummy"]) (f2.rows.map (fun r => (r.1 ++ [("dummy", "1")], r.2)))
    dropCol "dummy" (mergeOn ["dummy"] g1 g2)
  else
    mergeOn common f1 f2

/-- Multiplication as the specification words it: the scope is the
union of the two scopes (left columns first), and the rows are the
relational equi-join pairs - every row of A paired with every row of B
agreeing on all common columns - with the prob values multiplied; with
no common column every pair of rows qualifies, the full cross
product. -/
def multiplicationSpec (f1 f2 : Factor) : Factor :=
  Factor.mk (f1.scope ++ f2.scope.filter (fun c => ¬ c ∈ f1.scope))
    (joinRows (f1.scope.filter (fun c => c ∈ f2.scope)) f1.rows f2.rows)

/-- sum_out (lines 126 to 133): group the rows by the remaining columns
and sum prob inside every group.  pandas groupby with an empty key list
raises ValueError, so the result is none when the variable is the whole
scope.  pandas sorts the group keys while the groups here appear in
first occurrence order; no theorem below depends on row order. -/
def sum_out (v : String) (f : Factor) : Option Factor :=
  let remaining := f.scope.filter (fun c => c ≠ v)
  if remaining = [] then none
  else
    let proj : Row → Row := fun r => r.filter (fun p => p.1 ∈ remaining)
    let keys := (f.rows.map (fun r => proj r.1)).dedup
    some (Factor.mk remaining
      (keys.map (fun k => (k, ((f.rows.filter (fun r => proj r.1 = k)).map (fun r => r.2)).sum))))

/-- The heuristic argument of run: a heuristic name (a Python string)
or a literal elimination ordering (a Python list of variable names). -/
inductive Heuristic where
  | str (s : String)
  | order (l : List String)
deriving DecidableEq

/-- Python min with a key function: the first element of the list whose
key value is minimal. -/
def minByKey (f : String → Nat) : List String → String
  | [] => ""
  | x :: xs => xs.foldl (fun acc y => if f y < f acc then y else acc) x

/-- Python max with a key function: the first element of the list whose
key value is maximal. -/
def maxByKey (f : String → Nat) : List String → String
  | [] => ""
  | x :: xs => xs.foldl (fun acc y => if f acc < f y then y else acc) x

/-- random.choice modelled by an arbitrary index chooser passed in as a
parameter. -/
def pickRandom (choice : List String → Nat) (l : List String) : String :=
  l.getD (choice l % l.length) ""

/-- Row count of the CPT table stored for a variable; every network
node owns a CPT, so the default branch is never taken on real input. -/
def cptSize (net : Network) (v : String) : Nat :=
  ((net.probabilities.lookup v).map (fun f => f.rows.length)).getD 0

/-- Number of parents of a variable. -/
def parentCount (net : Network) (v : String) : Nat :=
  ((net.parents.lookup v).map (fun l => l.length)).getD 0

/-- Number of nodes listing the variable among their parents. -/
def childCount (net : Network) (v : String) : Nat :=
  (net.nodes.filter (fun c => v ∈ ((net.parents.lookup c).getD []))).length

/-- Number of tracked tables whose columns contain the variable. -/
def factorCount (net : Network) (v : String) : Nat :=
  (net.probabilities.filter (fun kf => v ∈ kf.2.scope)).length

/-- One selection step of elimination_order (lines 141 to 155): the
dispatch compares the heuristic argument against each name with Python
equality.  A literal list argument compares unequal to every string, so
it falls through to the random fallback branch. -/
def heuristicPick (net : Network) (h : Heuristic) (choice : List String → Nat) (remaining : List String) : String :=
  match h with
  | Heuristic.str s =>
    if s = "random" then pickRandom choice remaining
    else if s = "min-size" then minByKey (cptSize net) remaining
    else if s = "least-incoming-arcs" then minByKey (parentCount net) remaining
    else if s = "outgoing-arcs-first" then maxByKey (childCount net) remaining
    else if s = "min-weight" then minByKey (cptSize net) remaining
    else if s = "fewest-factors" then minByKey (factorCount net) remaining
    else pickRandom choice remaining
  | Heuristic.order _ => pickRandom choice remaining

/-- The while loop of elimination_order, the size of the remaining set
serving as fuel (each pass removes the picked variable). -/
def elimLoop (net : Network) (h : Heuristic) (choice : List String → Nat) : Nat → List String → List String
  | 0, _ => []
  | _ + 1, [] => []
  | n + 1, x :: xs =>
    heuristicPick net h choice (x :: xs)
      :: elimLoop net h choice n ((x :: xs).erase (heuristicPick net h choice (x :: xs)))

/-- elimination_order (lines 135 to 158): the remaining set is the node
set minus the observed variables; variables are picked one at a time
and removed until the set is empty.  The Python set iteration order is
modelled by list order. -/
def elimination_order (net : Network) (h : Heuristic) (observed : List (String × String)) (choice : List String → Nat) : List String :=
  let remaining := (net.nodes.filter (fun v => observed.lookup v = none)).dedup
  elimLoop net h choice remaining.length remaining

/-- The ordering the engine eliminates with (run lines 36 to 38):
elimination_order on the network as it stands after the evidence step,
with the query variable filtered out. -/
def eliminationOrderUsed (net : Network) (query : String) (observed : List (String × String)) (h : Heuristic) (choice : List String → Nat) : List String :=
  (elimination_order net h observed choice).filter (fun v => v ≠ query)

/-- One pass of the elimination loop (run lines 43 to 57): collect the
tracked factors whose columns contain the variable, skip when there are
none, multiply the collected factors left to right, sum the variable
out (none propagates the pandas ValueError), then delete the collected
entries and append the reduced factor under a fresh key. -/
def elimStep (factors : List (String × Factor)) (v : String) : Option (List (String × Factor)) :=
  match factors.filter (fun kf => v ∈ kf.2.scope) with
  | [] => some factors
  | r0 :: rest =>
    match sum_out v ((rest.map (fun kf => kf.2)).foldl multiplication r0.2) with
    | none => none
    | some reduced =>
      some (factors.filter (fun kf => ¬ v ∈ kf.2.scope) ++ [("reduced_" ++ v, reduced)])

/-- The elimination loop of run over the chosen ordering. -/
def elimLoopFactors : List String → List (String × Factor) → Option (List (String × Factor))
  | [], factors => some factors
  | v :: rest, factors =>
    match elimStep factors v with
    | none => none
    | some fs => elimLoopFactors rest fs

/-- STEP 3 of run (lines 70 to 77): the leftover non-query columns are
listed once up front; an observed leftover column is filtered to its
observed value and dropped, any other leftover is summed out. -/
def cleanupLoop (observed : List (String × String)) : List String → Factor → Option Factor
  | [], f => some f
  | v :: rest, f =>
    match observed.lookup v with
    | some val =>
      cleanupLoop observed rest
        (dropCol v (Factor.mk f.scope (f.rows.filter (fun r => r.1.lookup v = some val))))
    | none =>
      match sum_out v f with
      | none => none
      | some g => cleanupLoop observed rest g

/-- STEP 4 of run (line 80): divide the prob column by its own sum.
pandas produces NaN entries when the sum is zero, rational division by
zero produces zero entries; either way the division is carried out and
nothing is detected or reported. -/
def normalizeStep (f : Factor) : Factor :=
  Factor.mk f.scope (f.rows.map (fun r => (r.1, r.2 / factorTotal f)))

/-- Outcome of a call to run: the caller network object as it stands
after the call, and the returned table; none stands for an uncaught
Python exception (the groupby ValueError, or the final combination
starting from no factor at all). -/
structure RunResult where
  network : Network
  result : Option Factor
deriving DecidableEq

/-- run (lines 18 to 83).  STEP 0 writes the evidence-reduced tables
back into the caller network object (simplification assigns into
self.network.probabilities); the elimination ordering is computed on
that mutated network; the factor dictionary of the loop is a shallow
copy of the mutated tables. -/
def run (net : Network) (query : String) (observed : List (String × String)) (h : Heuristic) (choice : List String → Nat) : RunResult :=
  let probs := simplification observed net.probabilities
  let net2 := Network.mk net.nodes net.values net.parents probs
  let order := eliminationOrderUsed net2 query observed h choice
  let res : Option Factor :=
    match elimLoopFactors order probs with
    | none => none
    | some factors =>
      match factors.map (fun kf => kf.2) with
      | [] => none
      | f0 :: rest =>
        let final := rest.foldl multiplication f0
        match cleanupLoop observed (final.scope.filter (fun c => c ≠ query)) final with
        | none => none
        | some cleaned => some (normalizeStep cleaned)
  RunResult.mk net2 res

/-- Well-formedness of a factor table as the data model describes
factors: no repeated scope column, no column named dummy (scopes hold
variable names), and every row assigns exactly the scope columns in
scope order. -/
def FactorWF (f : Factor) : Prop :=
  f.scope.Nodup ∧ ¬ "dummy" ∈ f.scope ∧ ∀ r ∈ f.rows, r.1.map Prod.fst = f.scope

instance (f : Factor) : Decidable (FactorWF f) := by
  unfold FactorWF
  infer_instance

/-- A one node network: P(A=True) is three fifths. -/
def cptA : Factor :=
  Factor.mk ["A"] [([("A", "True")], 3/5), ([("A", "False")], 2/5)]

/-- The network owning cptA. -/
def net1 : Network :=
  Network.mk ["A"] [("A", ["True", "False"])] [("A", [])] [("A", cptA)]

/-- A one node network giving its value False probability zero. -/
def netZero : Network :=
  Network.mk ["A"] [("A", ["True", "False"])] [("A", [])]
    [("A", Factor.mk ["A"] [([("A", "True")], 1), ([("A", "False")], 0)])]

/-- A three node network with independent uniform binary nodes. -/
def netABC : Network :=
  Network.mk ["A", "B", "C"]
    [("A", ["True", "False"]), ("B", ["True", "False"]), ("C", ["True", "False"])]
    [("A", []), ("B", []), ("C", [])]
    [("A", Factor.mk ["A"] [([("A", "True")], 1/2), ([("A", "False")], 1/2)]),
     ("B", Factor.mk ["B"] [([("B", "True")], 1/2), ([("B", "False")], 1/2)]),
     ("C", Factor.mk ["C"] [([("C", "True")], 1/2), ([("C", "False")], 1/2)])]

/-! General list helpers used by the development. -/

lemma map_congr_mem {α β : Type} (l : List α) (f g : α → β) (h : ∀ a ∈ l, f a = g a) :
    l.map f = l.map g := by
  induction l with
  | nil => rfl
  | cons a t ih =>
    simp only [List.map_cons]
    rw [h a (by simp), ih (fun x hx => h x (by simp [hx]))]

lemma map_id_mem {α : Type} (l : List α) (f : α → α) (h : ∀ a ∈ l, f a = a) :
    l.map f = l := by
  induction l with
  | nil => rfl
  | cons a t ih =>
    simp only [List.map_cons]
    rw [h a (by simp), ih (fun x hx => h x (by simp [hx]))]

lemma filter_congr_mem {α : Type} (p q : α → Bool) (l : List α) (h : ∀ a ∈ l, p a = q a) :
    l.filter p = l.filter q := by
  induction l with
  | nil => rfl
  | cons a t ih =>
    have ha := h a (by simp)
    have ht := ih (fun x hx => h x (by simp [hx]))
    cases hq : q a <;> simp [List.filter_cons, ha, hq, ht]

lemma filter_eq_self_mem {α : Type} (p : α → Bool) (l : List α) (h : ∀ a ∈ l, p a = true) :
    l.filter p = l := by
  induction l with
  | nil => rfl
  | cons a t ih =>
    simp [List.filter_cons, h a (by simp), ih (fun x hx => h x (by simp [hx]))]

lemma filter_filter_of_imp {α : Type} (p q : α → Bool) (l : List α)
    (h : ∀ x, q x = true → p x = true) :
    (l.filter p).filter q = l.filter q := by
  induction l with
  | nil => rfl
  | cons a t ih =>
    cases hq : q a
    · cases hp : p a <;> simp [List.filter_cons, hp, hq, ih]
    · have hp := h a hq
      simp [List.filter_cons, hp, hq, ih]

lemma lookup_append_right (k : String) (l1 l2 : List (String × String))
    (h : ¬ k ∈ l1.map Prod.fst) :
    (l1 ++ l2).lookup k = l2.lookup k := by
  induction l1 with
  | nil => rfl
  | cons a t ih =>
    obtain ⟨a1, a2⟩ := a
    have hk : (k == a1) = false := by
      simp only [List.map_cons, List.mem_cons] at h
      exact beq_eq_false_iff_ne.mpr (fun he => h (Or.inl he))
    simp only [List.cons_append, List.lookup, hk]
    exact ih (fun hm => h (by simp only [List.map_cons, List.mem_cons]; exact Or.inr hm))

/-! Concrete evaluations of the engine that settle the frame-effect and
error-handling claims.  The Batteries rational operations are sealed
against unfolding by default; evaluation by decide needs them open. -/

attribute [local semireducible] Rat.mul Rat.inv Rat.add Rat.sub

/-- C1.  A call to run writes the evidence-reduced tables back into the
caller network object: after querying net1 with evidence A equal True,
the network CPT for A has lost its A column and holds the single
reduced row, while the caller supplied the two row table over A.  A
second call on the same object therefore observes the reduced, not the
original, CPTs. -/
theorem run_mutates_caller_network :
    (run net1 "A" [("A", "True")] (Heuristic.str "min-size") (fun _ => 0)).network.probabilities
        = [("A", Factor.mk [] [([], 3/5)])]
      ∧ net1.probabilities
        = [("A", Factor.mk ["A"] [([("A", "True")], 3/5), ([("A", "False")], 2/5)])] := by
  constructor
  · decide
  · decide

/-- C3.  When the variable is the whole scope of the factor, sum_out
fails (pandas groupby receives an empty key list and raises
ValueError) instead of returning the single row scalar factor the
specification promises. -/
theorem sum_out_entire_scope_fails :
    sum_out "B" (Factor.mk ["B"] [([("B", "True")], 1/2), ([("B", "False")], 1/2)]) = none := by
  decide

/-- C4.  Evidence of probability zero: on netZero with evidence A equal
False the final factor mass is zero, and run performs the division
anyway and returns the table (all prob entries garbage: NaN in pandas,
zero here) - no ZeroProbabilityEvidence failure is raised. -/
theorem run_zero_mass_evidence_no_error :
    (run netZero "A" [("A", "False")] (Heuristic.str "min-size") (fun _ => 0)).result
      = some (Factor.mk [] [([], 0)]) := by
  decide

/-- C5.  An evidence variable absent from the network is silently
ignored: run on net1 with the unknown evidence variable Z returns the
ordinary prior of A and signals nothing - there is no InvalidEvidence
(and no validation of any kind) at the entry point boundary. -/
theorem run_unknown_evidence_not_rejected :
    (run net1 "A" [("Z", "True")] (Heuristic.str "min-size") (fun _ => 0)).result
      = some cptA := by
  decide

/-- C8.  Querying the evidence variable itself: evidence incorporation
drops the A column from every table, so the returned point mass is a
single row of empty scope - the result has no query column at all,
instead of being a table over the query variable and prob with the mass
at the observed value. -/
theorem run_query_equals_evidence_drops_column :
    (run net1 "A" [("A", "True")] (Heuristic.str "min-size") (fun _ => 0)).result
      = some (Factor.mk [] [([], 1)]) := by
  decide

/-! The elimination ordering always picks a member of the remaining
set, so the produced ordering is a permutation of the remaining set no
matter which heuristic - or random chooser - drives the picks. -/

lemma getD_mem_of_lt {α : Type} (l : List α) (n : Nat) (d : α) (h : n < l.length) :
    l.getD n d ∈ l := by
  rw [List.getD_eq_getElem?_getD, List.getElem?_eq_getElem h]
  exact List.getElem_mem h

lemma pickRandom_mem (choice : List String → Nat) (x : String) (xs : List String) :
    pickRandom choice (x :: xs) ∈ x :: xs := by
  unfold pickRandom
  exact getD_mem_of_lt _ _ _ (Nat.mod_lt _ (Nat.succ_pos xs.length))

lemma foldl_min_mem (f : String → Nat) : ∀ (xs : List String) (x : String),
    xs.foldl (fun acc y => if f y < f acc then y else acc) x ∈ x :: xs := by
  intro xs
  induction xs with
  | nil => intro x; simp
  | cons y ys ih =>
    intro x
    simp only [List.foldl_cons]
    by_cases hc : f y < f x
    · rw [if_pos hc]
      rcases List.mem_cons.mp (ih y) with h | h
      · rw [h]; simp
      · simp [h]
    · rw [if_neg hc]
      rcases List.mem_cons.mp (ih x) with h | h
      · rw [h]; simp
      · simp [h]

lemma foldl_max_mem (f : String → Nat) : ∀ (xs : List String) (x : String),
    xs.foldl (fun acc y => if f acc < f y then y else acc) x ∈ x :: xs := by
  intro xs
  induction xs with
  | nil => intro x; simp
  | cons y ys ih =>
    intro x
    simp only [List.foldl_cons]
    by_cases hc : f x < f y
    · rw [if_pos hc]
      rcases List.mem_cons.mp (ih y) with h | h
      · rw [h]; simp
      · simp [h]
    · rw [if_neg hc]
      rcases List.mem_cons.mp (ih x) with h | h
      · rw [h]; simp
      · simp [h]

lemma minByKey_mem (f : String → Nat) (x : String) (xs : List String) :
    minByKey f (x :: xs) ∈ x :: xs :=
  foldl_min_mem f xs x

lemma maxByKey_mem (f : String → Nat) (x : String) (xs : List String) :
    maxByKey f (x :: xs) ∈ x :: xs :=
  foldl_max_mem f xs x

lemma heuristicPick_mem (net : Network) (h : Heuristic) (choice : List String → Nat)
    (x : String) (xs : List String) :
    heuristicPick net h choice (x :: xs) ∈ x :: xs := by
  cases h with
  | order l => exact pickRandom_mem choice x xs
  | str s =>
    simp only [heuristicPick]
    split_ifs <;>
      first
        | exact pickRandom_mem choice x xs
        | exact minByKey_mem _ x xs
        | exact maxByKey_mem _ x xs

lemma elimLoop_perm (net : Network) (h : Heuristic) (choice : List String → Nat) :
    ∀ (n : Nat) (remaining : List String), remaining.length = n →
      (elimLoop net h choice n remaining).Perm remaining := by
  intro n
  induction n with
  | zero =>
    intro remaining hlen
    rw [List.length_eq_zero] at hlen
    subst hlen
    exact List.Perm.refl _
  | succ n ih =>
    intro remaining hlen
    cases remaining with
    | nil => exact List.Perm.refl _
    | cons x xs =>
      have hvar : heuristicPick net h choice (x :: xs) ∈ x :: xs :=
        heuristicPick_mem net h choice x xs
      have hlen2 : ((x :: xs).erase (heuristicPick net h choice (x :: xs))).length = n := by
        rw [List.length_erase_of_mem hvar]
        simp only [List.length_cons] at hlen ⊢
        omega
      have hperm := ih _ hlen2
      exact (hperm.cons _).trans (List.perm_cons_erase hvar).symm

/-- C2.  The literal precomputed ordering is not honoured: run hands
the Heuristic.order argument to elimination_order, where a Python list
compares unequal to every heuristic name string and therefore lands in
the random fallback.  On netABC with query C, empty evidence and
supplied literal ordering [A], the ordering the engine actually
eliminates with is a permutation of [A, B] - two variables chosen at
random - for every possible behaviour of the random chooser, never the
supplied one element sequence. -/
theorem engine_ignores_literal_ordering (choice : List String → Nat) :
    (eliminationOrderUsed netABC "C" [] (Heuristic.order ["A"]) choice).Perm ["A", "B"] := by
  have h0 : (elimination_order netABC (Heuristic.order ["A"]) [] choice).Perm ["A", "B", "C"] :=
    elimLoop_perm netABC (Heuristic.order ["A"]) choice 3 ["A", "B", "C"] rfl
  have h1 := h0.filter (fun v => decide (v ≠ "C"))
  have h2 : List.filter (fun v => decide (v ≠ "C")) ["A", "B", "C"] = ["A", "B"] := by decide
  rw [h2] at h1
  exact h1

/-- C2 witness: the chooser that always answers zero produces the used
ordering [A, B], a permutation of [A, B]. -/
theorem engine_ignores_literal_ordering_witness :
    (eliminationOrderUsed netABC "C" [] (Heuristic.order ["A"]) (fun _ => 0)).Perm ["A", "B"] :=
  engine_ignores_literal_ordering (fun _ => 0)

/-! Evidence incorporation: scope shrinkage, the invariant that no
observed variable survives in any scope, and idempotence. -/

lemma scope_reduceFactor_subset (v val c : String) (f : Factor)
    (hc : c ∈ (reduceFactor v val f).scope) : c ∈ f.scope := by
  by_cases hv : v ∈ f.scope
  · simp only [reduceFactor, if_pos hv, dropCol] at hc
    exact List.mem_of_mem_filter hc
  · simpa only [reduceFactor, if_neg hv] using hc

lemma not_mem_scope_reduceFactor (v val : String) (f : Factor) :
    ¬ v ∈ (reduceFactor v val f).scope := by
  by_cases hv : v ∈ f.scope
  · simp only [reduceFactor, if_pos hv, dropCol]
    intro hmem
    have := List.of_mem_filter hmem
    simp at this
  · simpa only [reduceFactor, if_neg hv] using hv

lemma reduceFactor_absent (v val : String) (f : Factor) (hv : ¬ v ∈ f.scope) :
    reduceFactor v val f = f := by
  simp only [reduceFactor, if_neg hv]

lemma evStep_establishes (ps : List (String × Factor)) (v val : String) :
    ∀ kf ∈ evStep ps (v, val), ¬ v ∈ kf.2.scope := by
  intro kf hkf
  rcases List.mem_map.mp hkf with ⟨kg, _, hEq⟩
  rw [← hEq]
  exact not_mem_scope_reduceFactor v val kg.2

lemma evStep_preserves (ps : List (String × Factor)) (ev : String × String) (v : String)
    (h : ∀ kf ∈ ps, ¬ v ∈ kf.2.scope) :
    ∀ kf ∈ evStep ps ev, ¬ v ∈ kf.2.scope := by
  intro kf hkf
  rcases List.mem_map.mp hkf with ⟨kg, hkg, hEq⟩
  rw [← hEq]
  intro hmem
  exact h kg hkg (scope_reduceFactor_subset ev.1 ev.2 v kg.2 hmem)

lemma foldl_evStep_preserves (v : String) :
    ∀ (obs : List (String × String)) (ps : List (String × Factor)),
      (∀ kf ∈ ps, ¬ v ∈ kf.2.scope) →
      ∀ kf ∈ obs.foldl evStep ps, ¬ v ∈ kf.2.scope := by
  intro obs
  induction obs with
  | nil => intro ps h; simpa using h
  | cons e rest ih =>
    intro ps h
    simp only [List.foldl_cons]
    exact ih (evStep ps e) (evStep_preserves ps e v h)

lemma simplification_clears (observed : List (String × String)) (ps : List (String × Factor))
    (v val : String) (hv : (v, val) ∈ observed) :
    ∀ kf ∈ simplification observed ps, ¬ v ∈ kf.2.scope := by
  induction observed generalizing ps with
  | nil => cases hv
  | cons e rest ih =>
    rcases List.mem_cons.mp hv with heq | hmem
    · subst heq
      simp only [simplification, List.foldl_cons]
      exact foldl_evStep_preserves v rest (evStep ps (v, val)) (evStep_establishes ps v val)
    · simp only [simplification, List.foldl_cons]
      exact ih (evStep ps e) hmem

/-- C7.  After evidence incorporation no observed variable occurs in
the scope of any tracked factor, and evidence reduction for a variable
absent from a factor's scope leaves that factor untouched and raises
nothing. -/
theorem simplification_evidence_invariant (observed : List (String × String))
    (ps : List (String × Factor)) (v val : String) (hv : (v, val) ∈ observed)
    (k : String) (f : Factor) (hf : (k, f) ∈ simplification observed ps)
    (g : Factor) (hg : ¬ v ∈ g.scope) :
    ¬ v ∈ f.scope ∧ reduceFactor v val g = g :=
  ⟨simplification_clears observed ps v val hv (k, f) hf, reduceFactor_absent v val g hg⟩

/-- C7 witness: on the one table network where B is observed True, the
reduced table has empty scope (B is gone), and reducing by B a factor
whose scope is only A is the identity. -/
theorem simplification_evidence_invariant_witness :
    (¬ "B" ∈ (Factor.mk [] [([], (1 : ℚ)/2)]).scope)
      ∧ reduceFactor "B" "True" (Factor.mk ["A"] []) = Factor.mk ["A"] [] :=
  simplification_evidence_invariant [("B", "True")]
    [("cptB", Factor.mk ["B"] [([("B", "True")], 1/2), ([("B", "False")], 1/2)])]
    "B" "True" (by decide) "cptB" (Factor.mk [] [([], 1/2)]) (by decide)
    (Factor.mk ["A"] []) (by decide)

lemma simplification_of_clean (observed : List (String × String)) (ps : List (String × Factor))
    (h : ∀ v val, (v, val) ∈ observed → ∀ kf ∈ ps, ¬ v ∈ kf.2.scope) :
    simplification observed ps = ps := by
  induction observed with
  | nil => rfl
  | cons e rest ih =>
    have hstep : evStep ps e = ps := by
      apply map_id_mem
      intro kf hkf
      have he : ¬ e.1 ∈ kf.2.scope := h e.1 e.2 (by simp) kf hkf
      rw [reduceFactor_absent e.1 e.2 kf.2 he]
    simp only [simplification, List.foldl_cons, hstep]
    exact ih (fun v val hv kf hkf => h v val (by simp [hv]) kf hkf)

/-- C10.  Evidence incorporation is idempotent: the first pass removes
every observed variable's column from every table holding it, so every
filter and drop of a second pass with the same evidence is skipped and
the tables come out unchanged. -/
theorem simplification_idempotent (observed : List (String × String))
    (ps : List (String × Factor)) :
    simplification observed (simplification observed ps) = simplification observed ps :=
  simplification_of_clean observed (simplification observed ps)
    (fun v val hv kf hkf => simplification_clears observed ps v val hv kf hkf)

/-- C10 witness: a second pass of the observed pair over the already
reduced table changes nothing. -/
theorem simplification_idempotent_witness :
    simplification [("B", "True")]
        (simplification [("B", "True")]
          [("cptB", Factor.mk ["B"] [([("B", "True")], (1 : ℚ)/2), ([("B", "False")], 1/2)])])
      = simplification [("B", "True")]
          [("cptB", Factor.mk ["B"] [([("B", "True")], (1 : ℚ)/2), ([("B", "False")], 1/2)])] :=
  simplification_idempotent [("B", "True")]
    [("cptB", Factor.mk ["B"] [([("B", "True")], (1 : ℚ)/2), ([("B", "False")], 1/2)])]

/-! Marginalization preserves total probability mass: the groups formed
by the remaining columns partition the rows. -/

lemma sum_map_filter_add {α : Type} (p : α → Bool) (w : α → ℚ) (l : List α) :
    ((l.filter p).map w).sum + ((l.filter (fun x => ! p x)).map w).sum = (l.map w).sum := by
  induction l with
  | nil => simp
  | cons a t ih =>
    cases hp : p a <;>
      simp only [List.filter_cons, hp, Bool.not_true, Bool.not_false, if_pos, if_neg,
        Bool.false_eq_true, not_false_eq_true, List.map_cons, List.sum_cons, ite_true,
        ite_false] <;>
      linarith [ih]

lemma sum_over_groups {α β : Type} [DecidableEq β] (g : α → β) (w : α → ℚ) :
    ∀ (ks : List β), ks.Nodup → ∀ (l : List α), (∀ x ∈ l, g x ∈ ks) →
      (ks.map (fun k => ((l.filter (fun x => g x = k)).map w).sum)).sum = (l.map w).sum := by
  intro ks
  induction ks with
  | nil =>
    intro _ l hl
    have hnil : l = [] := by
      cases l with
      | nil => rfl
      | cons a t => exact absurd (hl a (by simp)) (by simp)
    subst hnil
    simp
  | cons k kt ih =>
    intro hnd l hl
    simp only [List.map_cons, List.sum_cons]
    have hknotin : ¬ k ∈ kt := (List.nodup_cons.mp hnd).1
    have hgroups : ∀ k2 ∈ kt,
        l.filter (fun x => g x = k2)
          = (l.filter (fun x => ! decide (g x = k))).filter (fun x => g x = k2) := by
      intro k2 hk2
      have hne : k2 ≠ k := fun he => hknotin (he ▸ hk2)
      rw [filter_filter_of_imp]
      intro x hx
      have : g x = k2 := of_decide_eq_true hx
      simp [this, hne]
    have hmapeq :
        kt.map (fun k2 => ((l.filter (fun x => g x = k2)).map w).sum)
          = kt.map (fun k2 =>
              (((l.filter (fun x => ! decide (g x = k))).filter (fun x => g x = k2)).map w).sum) := by
      apply map_congr_mem
      intro k2 hk2
      rw [hgroups k2 hk2]
    have hsub : ∀ x ∈ l.filter (fun x => ! decide (g x = k)), g x ∈ kt := by
      intro x hx
      have hxl : x ∈ l := List.mem_of_mem_filter hx
      have hxne : ¬ g x = k := by
        have := List.of_mem_filter hx
        simpa using this
      rcases List.mem_cons.mp (hl x hxl) with h | h
      · exact absurd h hxne
      · exact h
    rw [hmapeq, ih (List.nodup_cons.mp hnd).2 _ hsub]
    have := sum_map_filter_add (fun x => decide (g x = k)) w l
    linarith [this]

/-- C9.  Summing a variable out of a factor that keeps at least one
other scope column succeeds and leaves the total prob mass unchanged;
iterating this down to a single remaining variable therefore keeps the
original total mass. -/
theorem sum_out_preserves_total (f : Factor) (v : String)
    (_hv : v ∈ f.scope) (hrem : f.scope.filter (fun c => c ≠ v) ≠ []) :
    ∃ g, sum_out v f = some g ∧ factorTotal g = factorTotal f := by
  have heq : sum_out v f = some (Factor.mk (f.scope.filter (fun c => c ≠ v))
      (((f.rows.map (fun r => r.1.filter (fun p => p.1 ∈ f.scope.filter (fun c => c ≠ v)))).dedup).map
        (fun k => (k, ((f.rows.filter (fun r =>
          r.1.filter (fun p => p.1 ∈ f.scope.filter (fun c => c ≠ v)) = k)).map
            (fun r => r.2)).sum)))) := by
    simp only [sum_out]
    rw [if_neg hrem]
  refine ⟨_, heq, ?_⟩
  simp only [factorTotal, List.map_map]
  have hmain := sum_over_groups
    (fun r : Row × ℚ => r.1.filter (fun p => p.1 ∈ f.scope.filter (fun c => c ≠ v)))
    (fun r : Row × ℚ => r.2)
    ((f.rows.map (fun r => r.1.filter (fun p => p.1 ∈ f.scope.filter (fun c => c ≠ v)))).dedup)
    (List.nodup_dedup _)
    f.rows
    (fun x hx => List.mem_dedup.mpr (List.mem_map_of_mem _ hx))
  simpa [Function.comp] using hmain

/-- C9 witness: summing A out of the uniform two column table over A
and B keeps the total mass one. -/
theorem sum_out_preserves_total_witness :
    ∃ g, sum_out "A" (Factor.mk ["A", "B"]
        [([("A", "True"), ("B", "True")], 1/4), ([("A", "True"), ("B", "False")], 1/4),
         ([("A", "False"), ("B", "True")], 1/4), ([("A", "False"), ("B", "False")], 1/4)])
      = some g
      ∧ factorTotal g = factorTotal (Factor.mk ["A", "B"]
        [([("A", "True"), ("B", "True")], 1/4), ([("A", "True"), ("B", "False")], 1/4),
         ([("A", "False"), ("B", "True")], 1/4), ([("A", "False"), ("B", "False")], 1/4)]) :=
  sum_out_preserves_total _ "A" (by decide) (by decide)

/-! Multiplication agrees with the relational equi-join the spec
describes; the dummy join key of the no-common-column branch realizes
the full cross product and leaves no trace in the result. -/

lemma dummy_lookup (r : Row) (hr : ¬ "dummy" ∈ r.map Prod.fst) :
    (r ++ [("dummy", "1")]).lookup "dummy" = some "1" := by
  rw [lookup_append_right _ _ _ hr]
  decide

lemma joinRows_dummy (rows1 rows2 : List (Row × ℚ))
    (hd1 : ∀ r ∈ rows1, ¬ "dummy" ∈ r.1.map Prod.fst)
    (hd2 : ∀ r ∈ rows2, ¬ "dummy" ∈ r.1.map Prod.fst) :
    (joinRows ["dummy"] (rows1.map (fun r => (r.1 ++ [("dummy", "1")], r.2)))
        (rows2.map (fun r => (r.1 ++ [("dummy", "1")], r.2)))).map
      (fun r => (r.1.filter (fun p => p.1 ≠ "dummy"), r.2))
    = joinRows [] rows1 rows2 := by
  induction rows1 with
  | nil => rfl
  | cons r1 rest ih =>
    have hr1 : ¬ "dummy" ∈ r1.1.map Prod.fst := hd1 r1 (by simp)
    have ihr := ih (fun r hr => hd1 r (by simp [hr]))
    simp only [List.map_cons, joinRows, List.map_append]
    rw [ihr]
    congr 1
    have hfilterL : (rows2.map (fun r => (r.1 ++ [("dummy", "1")], r.2))).filter
        (fun r2 => (["dummy"] : List String).all
          (fun k => (r1.1 ++ [("dummy", "1")]).lookup k == r2.1.lookup k))
        = rows2.map (fun r => (r.1 ++ [("dummy", "1")], r.2)) := by
      apply filter_eq_self_mem
      intro a ha
      rcases List.mem_map.mp ha with ⟨r2, hr2, hEq⟩
      subst hEq
      simp only [List.all_cons, List.all_nil, Bool.and_true]
      rw [dummy_lookup r1.1 hr1, dummy_lookup r2.1 (hd2 r2 hr2)]
      rfl
    have hfilterR : rows2.filter (fun r2 => (([] : List String)).all
        (fun k => r1.1.lookup k == r2.1.lookup k)) = rows2 :=
      filter_eq_self_mem _ _ (fun a _ => rfl)
    rw [hfilterL, hfilterR, List.map_map, List.map_map]
    apply map_congr_mem
    intro r2 hr2
    simp only [Function.comp]
    have hq : (r2.1 ++ [("dummy", "1")]).filter (fun p => ¬ p.1 ∈ (["dummy"] : List String))
        = r2.1 := by
      rw [List.filter_append]
      have ha2 : r2.1.filter (fun p => ¬ p.1 ∈ (["dummy"] : List String)) = r2.1 :=
        filter_eq_self_mem _ _ (fun p hp => by
          have hne : p.1 ≠ "dummy" :=
            fun he => (hd2 r2 hr2) (he ▸ List.mem_map_of_mem Prod.fst hp)
          simp [hne])
      have hb : ([("dummy", "1")] : Row).filter
          (fun p => ¬ p.1 ∈ (["dummy"] : List String)) = [] := by decide
      rw [ha2, hb, List.append_nil]
    have hw : ((r1.1 ++ [("dummy", "1")]) ++ r2.1).filter (fun p => p.1 ≠ "dummy")
        = r1.1 ++ r2.1 := by
      rw [List.filter_append, List.filter_append]
      have hwa : r1.1.filter (fun p => p.1 ≠ "dummy") = r1.1 :=
        filter_eq_self_mem _ _ (fun p hp => by
          have hne : p.1 ≠ "dummy" :=
            fun he => hr1 (he ▸ List.mem_map_of_mem Prod.fst hp)
          simp [hne])
      have hwb : ([("dummy", "1")] : Row).filter (fun p => p.1 ≠ "dummy") = [] := by decide
      have hwc : r2.1.filter (fun p => p.1 ≠ "dummy") = r2.1 :=
        filter_eq_self_mem _ _ (fun p hp => by
          have hne : p.1 ≠ "dummy" :=
            fun he => (hd2 r2 hr2) (he ▸ List.mem_map_of_mem Prod.fst hp)
          simp [hne])
      rw [hwa, hwb, hwc, List.append_nil]
    have hnil : r2.1.filter (fun p => ¬ p.1 ∈ ([] : List String)) = r2.1 :=
      filter_eq_self_mem _ _ (fun p _ => by simp)
    rw [hq, hw, hnil]

lemma filter_not_mem_common (s1 s2 : List String) :
    s2.filter (fun c => ¬ c ∈ s1.filter (fun d => d ∈ s2))
      = s2.filter (fun c => ¬ c ∈ s1) := by
  apply filter_congr_mem
  intro c hc
  have hiff : (c ∈ s1.filter (fun d => d ∈ s2)) ↔ c ∈ s1 := by
    simp [List.mem_filter, hc]
  rw [decide_eq_decide]
  exact not_congr hiff

lemma dummy_scope (s1 s2 : List String) (h1d : ¬ "dummy" ∈ s1) (h2d : ¬ "dummy" ∈ s2)
    (hdisj : ∀ c ∈ s2, ¬ c ∈ s1) :
    ((s1 ++ ["dummy"]) ++ (s2 ++ ["dummy"]).filter
        (fun c => ¬ c ∈ (["dummy"] : List String))).filter (fun d => d ≠ "dummy")
    = s1 ++ s2.filter (fun c => ¬ c ∈ s1) := by
  have hs2 : (s2 ++ ["dummy"]).filter (fun c => ¬ c ∈ (["dummy"] : List String)) = s2 := by
    rw [List.filter_append]
    have ha : s2.filter (fun c => ¬ c ∈ (["dummy"] : List String)) = s2 :=
      filter_eq_self_mem _ _ (fun a ha => by
        have hne : a ≠ "dummy" := fun he => h2d (he ▸ ha)
        simp [hne])
    have hb : (["dummy"] : List String).filter
        (fun c => ¬ c ∈ (["dummy"] : List String)) = [] := by decide
    rw [ha, hb, List.append_nil]
  rw [hs2, List.filter_append, List.filter_append]
  have ha : s1.filter (fun d => d ≠ "dummy") = s1 :=
    filter_eq_self_mem _ _ (fun a ha => by
      have hne : a ≠ "dummy" := fun he => h1d (he ▸ ha)
      simp [hne])
  have hb : (["dummy"] : List String).filter (fun d => d ≠ "dummy") = [] := by decide
  have hcc : s2.filter (fun d => d ≠ "dummy") = s2 :=
    filter_eq_self_mem _ _ (fun a ha => by
      have hne : a ≠ "dummy" := fun he => h2d (he ▸ ha)
      simp [hne])
  have hd : s2.filter (fun c => ¬ c ∈ s1) = s2 :=
    filter_eq_self_mem _ _ (fun a ha => by simp [hdisj a ha])
  rw [ha, hb, hcc, hd, List.append_nil]

/-- C6.  multiplication produces exactly what the specification words
describe: the scope is the union of the two scopes, the rows are the
relational equi-join pairs (the full cross product when no column is
shared, realized through the constant dummy key) with prob values
multiplied pairwise, and the result scope has no duplicate column and
no leftover dummy join key. -/
theorem multiplication_matches_spec (f1 f2 : Factor) (h1 : FactorWF f1) (h2 : FactorWF f2) :
    multiplication f1 f2 = multiplicationSpec f1 f2
    ∧ (multiplication f1 f2).scope.Nodup
    ∧ ¬ "dummy" ∈ (multiplication f1 f2).scope := by
  obtain ⟨h1nd, h1d, h1rows⟩ := h1
  obtain ⟨h2nd, h2d, h2rows⟩ := h2
  have hded : (f1.scope.filter (fun c => c ∈ f2.scope)).dedup
      = f1.scope.filter (fun c => c ∈ f2.scope) :=
    List.dedup_eq_self.mpr (h1nd.filter _)
  have hmain : multiplication f1 f2 = multiplicationSpec f1 f2 := by
    by_cases hcm : f1.scope.filter (fun c => c ∈ f2.scope) = []
    · have hdisj : ∀ c ∈ f2.scope, ¬ c ∈ f1.scope := by
        intro c hc2 hc1
        have hmem : c ∈ f1.scope.filter (fun c => c ∈ f2.scope) :=
          List.mem_filter.mpr ⟨hc1, by simpa using hc2⟩
        rw [hcm] at hmem
        cases hmem
      simp only [multiplication]
      rw [hded, if_pos hcm]
      simp only [mergeOn, dropCol, multiplicationSpec]
      congr 1
      · exact dummy_scope f1.scope f2.scope h1d h2d hdisj
      · rw [hcm]
        exact joinRows_dummy f1.rows f2.rows
          (fun r hr => by rw [h1rows r hr]; exact h1d)
          (fun r hr => by rw [h2rows r hr]; exact h2d)
    · simp only [multiplication]
      rw [hded, if_neg hcm]
      simp only [mergeOn, multiplicationSpec]
      congr 1
      exact congrArg (fun l => f1.scope ++ l) (filter_not_mem_common f1.scope f2.scope)
  refine ⟨hmain, ?_, ?_⟩
  · rw [hmain]
    simp only [multiplicationSpec]
    refine List.Nodup.append h1nd (h2nd.filter _) ?_
    intro a ha1 ha2
    have := List.of_mem_filter ha2
    simp only [decide_eq_true_eq] at this
    exact this ha1
  · rw [hmain]
    simp only [multiplicationSpec]
    intro hmem
    rcases List.mem_append.mp hmem with h | h
    · exact h1d h
    · exact h2d (List.mem_of_mem_filter h)

/-- C6 witness: two well-formed single column factors with disjoint
scopes multiply into their cross product, equal to the spec join, with
duplicate-free dummy-free scope. -/
theorem multiplication_matches_spec_witness :
    FactorWF (Factor.mk ["A"] [([("A", "True")], (1 : ℚ)/2), ([("A", "False")], 1/2)])
    ∧ (multiplication (Factor.mk ["A"] [([("A", "True")], (1 : ℚ)/2), ([("A", "False")], 1/2)])
          (Factor.mk ["B"] [([("B", "True")], (1 : ℚ)/3), ([("B", "False")], 2/3)])
        = multiplicationSpec
            (Factor.mk ["A"] [([("A", "True")], (1 : ℚ)/2), ([("A", "False")], 1/2)])
            (Factor.mk ["B"] [([("B", "True")], (1 : ℚ)/3), ([("B", "False")], 2/3)])
      ∧ (multiplication (Factor.mk ["A"] [([("A", "True")], (1 : ℚ)/2), ([("A", "False")], 1/2)])
          (Factor.mk ["B"] [([("B", "True")], (1 : ℚ)/3), ([("B", "False")], 2/3)])).scope.Nodup
      ∧ ¬ "dummy" ∈ (multiplication
          (Factor.mk ["A"] [([("A", "True")], (1 : ℚ)/2), ([("A", "False")], 1/2)])
          (Factor.mk ["B"] [([("B", "True")], (1 : ℚ)/3), ([("B", "False")], 2/3)])).scope) :=
  ⟨by decide,
   multiplication_matches_spec
     (Factor.mk ["A"] [([("A", "True")], (1 : ℚ)/2), ([("A", "False")], 1/2)])
     (Factor.mk ["B"] [([("B", "True")], (1 : ℚ)/3), ([("B", "False")], 2/3)])
     (by decide) (by decide)⟩
